import Mathlib

set_option maxHeartbeats 1000000

/-!
Shallow embedding of the remote file-access layer of this repository
(`pkg/wshrpc/wshremote/wshremote.go` and the `iochan` package), together with
theorems settling the specification claims about it.

Strings from the Go side are embedded as `List Char` (a Go string is its byte
sequence; all inputs of interest here are ASCII), file payloads as `List Nat`
(byte values), and paths either as `List Char` or as component lists
`List String` where only the component structure matters.
-/

namespace Waveterm

/-! ## ByteRange (`parseByteRange`, wshremote.go lines 47-66) -/

structure ByteRangeType where
  all : Bool
  start : Int
  endPos : Int
deriving DecidableEq, Repr

/-- Value of a decimal digit character. -/
def digitVal (c : Char) : Nat := c.toNat - 48

/-- Splits a character list into its longest run of leading decimal digits
and the remainder (the digit-collection step of the `%d` verb of `fmt.Sscanf`). -/
def splitDigits : List Char → List Char × List Char
  | [] => ([], [])
  | c :: cs =>
    if c.isDigit then
      let p := splitDigits cs
      (c :: p.1, p.2)
    else ([], c :: cs)

/-- Numeric value of a list of decimal digit characters. -/
def digitsVal (ds : List Char) : Nat :=
  ds.foldl (fun a c => 10 * a + digitVal c) 0

/-- Leading-whitespace skipping performed by `fmt.Sscanf` before a `%d` verb. -/
def skipSpacesC : List Char → List Char
  | [] => []
  | c :: cs =>
    if c = ' ' ∨ c = '\t' ∨ c = '\n' ∨ c = '\r' then skipSpacesC cs else c :: cs

/-- Optional sign consumed by the `%d` verb: returns (negative?, rest). -/
def signSplit : List Char → Bool × List Char
  | [] => (false, [])
  | c :: r => if c = '-' then (true, r) else if c = '+' then (false, r) else (false, c :: r)

/-- Largest value representable in the Go type `int64`. -/
def maxInt64 : Nat := 9223372036854775807

/-- One `%d` conversion of `fmt.Sscanf` reading into an `int64`:
skip whitespace, optional sign, one or more decimal digits; fails on no
digits or on `int64` overflow.  Returns the value and the unread remainder. -/
def scanInt64 (s : List Char) : Option (Int × List Char) :=
  let s1 := skipSpacesC s
  let sg := signSplit s1
  let p := splitDigits sg.2
  if p.1 = [] then none
  else
    let v := digitsVal p.1
    if sg.1 then
      if v ≤ maxInt64 + 1 then some (-(v : Int), p.2) else none
    else
      if v ≤ maxInt64 then some ((v : Int), p.2) else none

/-- Model of `fmt.Sscanf(rangeStr, "%d-%d", &start, &end)`: first `%d`, then the
literal `-` must match the next input character exactly, then the second
`%d`.  Characters left over after the second conversion are ignored
(`Sscanf` does not require the whole input to be consumed). -/
def scanDD (s : List Char) : Option (Int × Int) :=
  match scanInt64 s with
  | none => none
  | some av =>
    match av.2 with
    | '-' :: r2 =>
      match scanInt64 r2 with
      | none => none
      | some bv => some (av.1, bv.1)
    | _ => none

/-- Function `parseByteRange` (wshremote.go lines 53-66). -/
def parseByteRange (s : List Char) : Except String ByteRangeType :=
  if s = [] then .ok ⟨true, 0, 0⟩
  else
    match scanDD s with
    | none => .error "invalid byte range"
    | some p =>
      if p.1 < 0 ∨ p.2 < 0 ∨ p.1 > p.2 then .error "invalid byte range"
      else .ok ⟨false, p.1, p.2⟩

/-- Claim-side definition, following the words of the spec: a non-empty range
string is accepted precisely when it is *exactly* of the form
`<start>-<end>` — digits, a dash, digits, and nothing else. -/
def exactRangeParse (s : List Char) : Option (Nat × Nat) :=
  let p1 := splitDigits s
  match p1.2 with
  | '-' :: r2 =>
    let p2 := splitDigits r2
    if p1.1 = [] ∨ p2.1 = [] ∨ p2.2 ≠ [] then none
    else some (digitsVal p1.1, digitsVal p2.1)
  | _ => none

/-! ## iochan packets (`pkg/util/iochan`) -/

/-- Structure `iochantypes.Packet`: data bytes plus an optional terminal checksum. -/
structure Packet where
  data : List Nat
  checksum : Option (List Nat)
deriving DecidableEq, Repr

/-- Union type `wshrpc.RespOrErrorUnion[iochantypes.Packet]`. -/
inductive RespOrError where
  | err (msg : String)
  | response (p : Packet)
deriving DecidableEq, Repr

/-- A packet is terminal when it is an error or carries a checksum. -/
def isTerminal : RespOrError → Bool
  | .err _ => true
  | .response p => p.checksum.isSome

/-! ## StreamWriterAdapter (`WriterChan`, iochan) -/

/-- How the receive loop of `WriterChan` ended: `success` is the clean return after
a matching terminal checksum; the two `fail` outcomes are the invocations of
`errCallback`; `incomplete` is a return with no terminal checksum seen
(channel closed early). -/
inductive WriterOutcome where
  | success
  | failUpstream (msg : String)
  | failChecksum
  | incomplete
deriving DecidableEq, Repr

/-- The receive loop of `WriterChan`, parameterized by the digest function `hash`
(standing for SHA-256 over the byte sequence fed to it so far).  `fed` is the
byte sequence fed to the running digest, `written` the bytes written to `w`
(modelled as an in-memory sink).  Per received item, in source order: an
error invokes the failure callback and stops; otherwise the data of the packet is
folded into the digest; then, if the packet carries the terminal checksum, it
is compared byte-for-byte against the local digest; otherwise the data is
written out and the loop continues. -/
def writerChanRun (hash : List Nat → List Nat) (written fed : List Nat) :
    List RespOrError → WriterOutcome × List Nat
  | [] => (.incomplete, written)
  | .err m :: _ => (.failUpstream m, written)
  | .response p :: rest =>
    let fed2 := fed ++ p.data
    match p.checksum with
    | some c =>
      if hash fed2 = c then (.success, written) else (.failChecksum, written)
    | none => writerChanRun hash (written ++ p.data) fed2 rest

/-- A channel stream consisting of data chunks followed by the terminal
checksum packet, as `ReaderChan` produces it. -/
def chunkStream (chunks : List (List Nat)) (c : List Nat) : List RespOrError :=
  chunks.map (fun d => .response ⟨d, none⟩) ++ [.response ⟨[], some c⟩]

/-! ## StreamReaderAdapter (`ReaderChan`, iochan) -/

/-- One result of `r.Read`: a chunk of `n ≥ 0` bytes, end of stream, or a
read error. -/
inductive ReadResult where
  | chunk (b : List Nat)
  | eof
  | fail (msg : String)
deriving DecidableEq, Repr

/-- Whether the governing context, cancelled just before loop iteration `k`
(`cancelAt = some k`), is observed as done at iteration `i`.  Cancellation is
permanent, so every later check also sees it. -/
def cancelledAt : Option Nat → Nat → Bool
  | none, _ => false
  | some k, i => k ≤ i

/-- The produce loop of `ReaderChan`: before each read the context is checked
(cancellation stops the loop with no further packet); a read error emits one
terminal error packet and stops; end of stream emits one terminal checksum
packet holding the digest of all bytes read and stops; a non-empty chunk is
folded into the digest and emitted as a data packet. -/
def readerChanGo (hash : List Nat → List Nat) (cancelAt : Option Nat) (i : Nat)
    (fed : List Nat) : List ReadResult → List RespOrError
  | [] => []
  | r :: rest =>
    if cancelledAt cancelAt i then []
    else
      match r with
      | .fail m => [.err ("ReaderChan: read error: " ++ m)]
      | .eof => [.response ⟨[], some (hash fed)⟩]
      | .chunk b =>
        if b = [] then readerChanGo hash cancelAt (i + 1) fed rest
        else .response ⟨b, none⟩ :: readerChanGo hash cancelAt (i + 1) (fed ++ b) rest

/-- The observable outcome of one `ReaderChan` run: the packets sent, and
whether the channel was closed and the cleanup callback invoked (both happen
in the deferred block of the goroutine, hence on every exit path). -/
structure ReaderOut where
  packets : List RespOrError
  closed : Bool
  cleanedUp : Bool
deriving DecidableEq, Repr

/-- Run of `ReaderChan` over a finite trace of read results. -/
def readerChan (hash : List Nat → List Nat) (cancelAt : Option Nat)
    (reads : List ReadResult) : ReaderOut :=
  ⟨readerChanGo hash cancelAt 0 [] reads, true, true⟩

/-! ## `remoteStreamFileRegular` (wshremote.go lines 116-154) -/

/-- The clip applied to a read of `rawN` bytes at position `pos`: when a
byte range is in force (`all = false`) and the read would run past the
`End` of the range (`e`), the emitted length is cut down to `End - filePos`
(lines 137-139); otherwise the full read is emitted. -/
def clipN (all : Bool) (e : Int) (pos rawN : Nat) : Nat :=
  if all = false ∧ (pos : Int) + (rawN : Int) > e then (e - (pos : Int)).toNat else rawN

/-- The read loop of `remoteStreamFileRegular` over an in-memory regular file
`file` with read buffer size `chunk`: each `fd.Read` returns the next
`min chunk remaining` bytes of the file (with `io.EOF` when none remain);
each non-empty read is clipped by `clipN` and emitted; the loop breaks as
soon as `filePos` has reached the `End` of the range, and at end of file.
Returns the emitted data chunks in order. -/
def streamRegGo (file : List Nat) (chunk : Nat) (all : Bool) (e : Int) (pos : Nat) :
    List (List Nat) :=
  if h : min chunk (file.length - pos) = 0 then []
  else
    if h2 : all = false ∧
        (pos : Int) + ((clipN all e pos (min chunk (file.length - pos)) : Nat) : Int) ≥ e then
      [(file.drop pos).take (clipN all e pos (min chunk (file.length - pos)))]
    else
      ((file.drop pos).take (clipN all e pos (min chunk (file.length - pos)))) ::
        streamRegGo file chunk all e (pos + clipN all e pos (min chunk (file.length - pos)))
termination_by file.length - pos
decreasing_by
  have hlen : pos < file.length := by
    rcases Nat.eq_zero_or_pos (file.length - pos) with h0 | h0
    · exact absurd (by simp [h0]) h
    · omega
  have hn : 0 < clipN all e pos (min chunk (file.length - pos)) := by
    unfold clipN at h2 ⊢
    by_cases hcl : all = false ∧ (pos : Int) + ((min chunk (file.length - pos) : Nat) : Int) > e
    · rw [if_pos hcl] at h2 ⊢
      rcases Nat.eq_zero_or_pos ((e - (pos : Int)).toNat) with h0 | h0
      · exfalso
        apply h2
        refine ⟨hcl.1, ?_⟩
        omega
      · exact h0
    · rw [if_neg hcl] at h2 ⊢
      omega
  omega

/-- Function `remoteStreamFileRegular`: seek to `Start` when a byte range is in force
(line 123-129), then run the read loop. -/
def remoteStreamFileRegular (file : List Nat) (chunk : Nat) (br : ByteRangeType) :
    List (List Nat) :=
  streamRegGo file chunk br.all br.endPos (if br.all then 0 else br.start.toNat)

/-! ## `RemoteListEntriesCommand`, recursive mode (wshremote.go lines 394-434) -/

/-- A node of the walked tree, as visited by `fs.WalkDir` (the root `.` is
visited first and is a directory). -/
structure DNode where
  name : String
  isDir : Bool
deriving DecidableEq, Repr

/-- The `fs.WalkDir` callback fold of `RemoteListEntriesCommand` with
`all=true`, over the visit sequence of the walk `nodes` (a tree with a fixed
traversal order): `seen` counts every visited node (incremented in a
deferred block, so also on the aborting return); nodes visited while
`seen < offset` are skipped; once `seen` reaches `offset+limit` the callback
returns `io.EOF`, aborting the whole walk; directories are traversed but
never collected; every other file is appended to the collection. -/
def walkCollect (offset limit : Nat) : List DNode → Nat → List DNode → List DNode
  | [], _, acc => acc
  | d :: rest, seen, acc =>
    if seen < offset then walkCollect offset limit rest (seen + 1) acc
    else if seen ≥ offset + limit then acc
    else if d.isDir then walkCollect offset limit rest (seen + 1) acc
    else walkCollect offset limit rest (seen + 1) (acc ++ [d])

/-- Recursive (`all=true`) entry collection of `RemoteListEntriesCommand`,
with a zero limit defaulting to `wshrpc.MaxDirSize` (lines 405-407). -/
def remoteListEntriesAll (maxDirSize : Nat) (nodes : List DNode) (offset limit : Nat) :
    List DNode :=
  walkCollect offset (if limit = 0 then maxDirSize else limit) nodes 0 []

/-! ## `remoteStreamFileDir` (wshremote.go lines 68-114) -/

/-- A directory entry as carried in `wshrpc.FileInfo`, restricted to the
fields the claims are about. -/
structure DirEnt where
  name : String
  isDir : Bool
  size : Int
deriving DecidableEq, Repr

/-- The batching loop of `remoteStreamFileDir` (lines 95-112): entries are
appended to `fileInfoArr` one by one and the array is flushed through the
data callback whenever it reaches `wshrpc.DirChunkSize`, with a final flush
of any partial batch.  Returns the flushed batches in order. -/
def dirBatches (chunkSz : Nat) : List DirEnt → List DirEnt → List (List DirEnt)
  | arr, [] => if arr.length > 0 then [arr] else []
  | arr, x :: rest =>
    if (arr ++ [x]).length ≥ chunkSz then (arr ++ [x]) :: dirBatches chunkSz [] rest
    else dirBatches chunkSz (arr ++ [x]) rest

/-- Function `remoteStreamFileDir`: with no byte range (`All`), children are truncated
to `maxDirSize` (lines 73-76); with a byte range, an out-of-range `Start`
returns immediately with no batches (lines 78-80, note: before the parent
entry is synthesized) and otherwise the slice `[Start, min End N)` of the
children is used (lines 81-85); then, when the parent stat succeeded and the
parent differs from the path itself, a synthesized `..` entry with size `-1`
is placed first (lines 87-94); the result is emitted in `chunkSz` batches. -/
def remoteStreamFileDir (maxDirSize chunkSz : Nat) (entries : List DirEnt)
    (parentInfo : Option DirEnt) (parentEqPath : Bool) (br : ByteRangeType) :
    List (List DirEnt) :=
  if br.all = false ∧ (entries.length : Int) ≤ br.start then []
  else
    let inner := if br.all then entries.take maxDirSize
      else (entries.take (min br.endPos.toNat entries.length)).drop br.start.toNat
    let arr0 := match parentInfo with
      | some pinfo => if parentEqPath then [] else [(⟨"..", pinfo.isDir, -1⟩ : DirEnt)]
      | none => []
    dirBatches chunkSz arr0 inner

/-! ## `resolvePaths` / `RemoteFileJoinCommand` (wshremote.go lines 544-563) -/

/-- Modelled from the spec: `wavebase.ExpandHomeDirSafe` (its source is not
part of this repository) expands the leading home-directory shorthand of a path
`~` against the home directory of the resolving endpoint and leaves all other
paths alone (§6: the spec says a leading home-directory shorthand is expanded against
the home directory of the resolving endpoint).  Paths are character lists. -/
def expandHomeDirSafe (home : List Char) (p : List Char) : List Char :=
  if p = ['~'] then home
  else if p.take 2 = ['~', '/'] then home ++ p.drop 1
  else p

/-- Predicate `filepath.IsAbs` on a Unix endpoint: the path starts with `/`. -/
def isAbsPath (p : List Char) : Bool := p.head? == some '/'

/-- The fold of `resolvePaths` over the segments after the first: each
segment is home-expanded; an absolute segment discards everything
accumulated so far and becomes the new base, any other segment is joined
onto the accumulated path.  `join` abstracts `filepath.Join`. -/
def resolvePathsGo (home : List Char) (join : List Char → List Char → List Char)
    (acc : List Char) : List (List Char) → List Char
  | [] => acc
  | p :: rest =>
    let p2 := expandHomeDirSafe home p
    if isAbsPath p2 then resolvePathsGo home join p2 rest
    else resolvePathsGo home join (join acc p2) rest

/-- Function `resolvePaths` (lines 544-558): an empty segment list resolves to the
home directory; otherwise the first segment is home-expanded and the rest
are folded left to right. -/
def resolvePaths (home : List Char) (join : List Char → List Char → List Char)
    (paths : List (List Char)) : List Char :=
  match paths with
  | [] => expandHomeDirSafe home ['~']
  | p0 :: rest => resolvePathsGo home join (expandHomeDirSafe home p0) rest

/-! ## `RemoteFileCopyCommand`: per-entry conflict resolution
(wshremote.go lines 330-386) -/

/-- What currently exists at the destination path of one archive entry. -/
inductive FsNodeKind where
  | file
  | dir
deriving DecidableEq, Repr

/-- The filesystem actions of the per-entry branches: `remove` is
`os.Remove`, `removeAll` is `os.RemoveAll`, `mkdirAll` is `os.MkdirAll` with
the mode of the entry, `createWrite` is `os.Create` + writing the payload +
`Chmod` + `Close`. -/
inductive CopyAct where
  | remove
  | removeAll
  | mkdirAll
  | createWrite
deriving DecidableEq, Repr

/-- Outcome of processing one archive entry against the destination state:
a failure with its message, or the sequence of actions performed. -/
inductive EntryDecision where
  | fail (msg : String)
  | acts (l : List CopyAct)
deriving DecidableEq, Repr

/-- The per-entry conflict-resolution branch of `RemoteFileCopyCommand`
(lines 330-386) as a pure decision function.  Note the branch structure of
the source: when the destination exists (`destinfo != nil`), only removals
or failures happen; the creation of the incoming directory or file (with
payload and mode) sits in the `else` branch reached only when the
destination path did not exist. -/
def copyEntryDecision (dest : Option FsNodeKind) (incomingIsDir merge overwrite : Bool) :
    EntryDecision :=
  match dest with
  | some .dir =>
    if incomingIsDir = false then
      if overwrite = false then
        .fail "cannot create directory, file exists at path, overwrite not specified"
      else .acts [.remove]
    else if merge = false ∧ overwrite = false then
      .fail "cannot create directory, directory exists at path, neither overwrite nor merge specified"
    else if overwrite = true then .acts [.removeAll]
    else .acts []
  | some .file =>
    if incomingIsDir = true then
      if overwrite = false then
        .fail "cannot create file, directory exists at path, overwrite not specified"
      else .acts [.removeAll]
    else if overwrite = false then
      .fail "cannot create file, file exists at path, overwrite not specified"
    else .acts [.remove]
  | none =>
    if incomingIsDir = true then .acts [.mkdirAll]
    else .acts [.createWrite]

/-- The 11-row decision table of spec §4.6, written from the words of the spec:
the conflict rows fail, the overwrite rows remove the existing destination
and then create the incoming directory or create the incoming file with
payload and mode (the existing-directory overwrite row only removes, its
recreation being left to subsequent entries), the merge row is a no-op, and
the absent-destination rows create. -/
def specEntryDecision (dest : Option FsNodeKind) (incomingIsDir merge overwrite : Bool) :
    EntryDecision :=
  match dest, incomingIsDir with
  | none, true => .acts [.mkdirAll]
  | none, false => .acts [.createWrite]
  | some .dir, false =>
    if overwrite = false then .fail "file exists at path, overwrite not specified"
    else .acts [.remove, .createWrite]
  | some .dir, true =>
    if overwrite = true then .acts [.removeAll]
    else if merge = true then .acts []
    else .fail "directory exists, neither overwrite nor merge"
  | some .file, true =>
    if overwrite = false then .fail "directory exists at path as a file, overwrite not specified"
    else .acts [.remove, .mkdirAll]
  | some .file, false =>
    if overwrite = false then .fail "file exists at path, overwrite not specified"
    else .acts [.remove, .createWrite]

/-! ## `RemoteTarStreamCommand` handle discipline (wshremote.go lines 210-277) -/

/-- The local handles `RemoteTarStreamCommand` deals in: the two ends of the
`io.Pipe`, the `tar.Writer`, and the source file opened at line 261 for a
single-file archive. -/
inductive Handle where
  | pipeReaderH
  | pipeWriterH
  | tarWriterH
  | srcFileH
deriving DecidableEq, Repr

inductive HEvent where
  | openH (h : Handle)
  | closeH (h : Handle)
deriving DecidableEq, Repr

/-- The open/close events of `RemoteTarStreamCommand` along each control
path: a failing stat returns before any resource is created (lines 219-222);
otherwise the pipe and tar writer are created (lines 223-224) and closed by
the cleanup callback handed to `ReaderChan` (lines 226-230), which runs when
the reader goroutine exits; the directory branch opens no further local
handle (`tarWriter.AddFS` manages its own); the single-file branch opens the
source file at line 261 once the header was written and the open succeeded —
and no `Close` for it appears on any path. -/
def remoteTarStreamHandleTrace (statOk isDir headerOk openOk : Bool) : List HEvent :=
  if statOk = false then []
  else
    [.openH .pipeReaderH, .openH .pipeWriterH, .openH .tarWriterH] ++
    (if isDir then []
     else if headerOk = false then []
     else if openOk = false then []
     else [.openH .srcFileH]) ++
    [.closeH .pipeReaderH, .closeH .pipeWriterH, .closeH .tarWriterH]

/-! ## `RemoteFileCopyCommand`: destination loop (wshremote.go lines 279-392) -/

/-- Paths as component lists; `filepath.Join(dest, name)` is component
concatenation. -/
abbrev PathC := List String

/-- A filesystem node: a regular file with content and mode, or a directory. -/
inductive FsNode where
  | file (content : List Nat) (mode : Nat)
  | dir
deriving DecidableEq, Repr

/-- The destination filesystem as a finite path-to-node map (first match
wins). -/
abbrev FS := List (PathC × FsNode)

def lookupFS (p : PathC) : FS → Option FsNode
  | [] => none
  | kv :: rest => if kv.1 = p then some kv.2 else lookupFS p rest

/-- Whether `base` is a path prefix of `q` (so `os.RemoveAll base` deletes `q`). -/
def isPathUnder : PathC → PathC → Bool
  | [], _ => true
  | _, [] => false
  | a :: as, b :: bs => (a == b) && isPathUnder as bs

/-- Model of `os.Remove` (restricted to the paths this development exercises: removal
of a single non-directory entry or an empty directory). -/
def removeFS (p : PathC) (fs : FS) : FS := fs.filter (fun kv => !(kv.1 == p))

/-- Model of `os.RemoveAll`: removes the path and everything under it. -/
def removeAllFS (p : PathC) (fs : FS) : FS := fs.filter (fun kv => !(isPathUnder p kv.1))

/-- Model of `os.Create` + `io.Copy` of the entry payload + `Chmod` + `Close`. -/
def createFileFS (p : PathC) (content : List Nat) (mode : Nat) (fs : FS) : FS :=
  (p, .file content mode) :: fs

/-- Model of `os.MkdirAll` with the mode of the entry (ancestor creation is immaterial to
the claims settled here and elided). -/
def mkdirAllFS (p : PathC) (fs : FS) : FS := (p, .dir) :: fs

/-- One archive entry: name relative to the archive root, directory flag,
mode, payload bytes. -/
structure TarEntry where
  name : PathC
  isDir : Bool
  mode : Nat
  payload : List Nat
deriving DecidableEq, Repr

/-- The destination loop of `RemoteFileCopyCommand` (lines 322-387), with a
peculiarity of this source faithfully retained: the loop header
`for next, err := tarReader.Next(); err == nil; {` has no post statement and
the body never calls `Next` again, and the `err` consulted by the loop
condition is the one assigned by `destinfo, err = os.Stat(nextPath)` at line
325 (which shadows the function-level `err` of line 287).  The loop
therefore re-processes the same first entry while its destination path keeps
existing, and exits as soon as the per-entry stat reports not-exists — which
is also the only iteration that ever creates anything (the `else` branch of
`destinfo != nil`).  `fuel` bounds the iterations; `none` stands for a run
that has not terminated within the fuel (the merge no-op row loops
forever). -/
def copyLoopGo (destPath : PathC) (merge overwrite : Bool) (entry : TarEntry) :
    Nat → FS → Option (Except String FS)
  | 0, _ => none
  | fuel + 1, fs =>
    let nextPath := destPath ++ entry.name
    match lookupFS nextPath fs with
    | some node =>
      match node, entry.isDir with
      | .dir, false =>
        if overwrite = false then
          some (.error "cannot create directory, file exists at path, overwrite not specified")
        else copyLoopGo destPath merge overwrite entry fuel (removeFS nextPath fs)
      | .dir, true =>
        if merge = false ∧ overwrite = false then
          some (.error "cannot create directory, directory exists at path, neither overwrite nor merge specified")
        else if overwrite = true then
          copyLoopGo destPath merge overwrite entry fuel (removeAllFS nextPath fs)
        else copyLoopGo destPath merge overwrite entry fuel fs
      | .file _ _, true =>
        if overwrite = false then
          some (.error "cannot create file, directory exists at path, overwrite not specified")
        else copyLoopGo destPath merge overwrite entry fuel (removeAllFS nextPath fs)
      | .file _ _, false =>
        if overwrite = false then
          some (.error "cannot create file, file exists at path, overwrite not specified")
        else copyLoopGo destPath merge overwrite entry fuel (removeFS nextPath fs)
    | none =>
      if entry.isDir then some (.ok (mkdirAllFS nextPath fs))
      else some (.ok (createFileFS nextPath entry.payload entry.mode fs))

/-- Function `RemoteFileCopyCommand` (lines 279-392): the top-level destination
pre-check of lines 287-313, then the destination loop over the incoming
archive, then the post-loop check of line 388 — which consults the *outer*
`err` of line 287 (the stat of the top-level destination), since the `err` of the loop is out of scope there. -/
def remoteFileCopy (fuel : Nat) (fs0 : FS) (destPath : PathC)
    (recursive merge overwrite : Bool) (archive : List TarEntry) :
    Option (Except String FS) :=
  let outerStatOk := (lookupFS destPath fs0).isSome
  let pre : Except String FS :=
    match lookupFS destPath fs0 with
    | some .dir =>
      if recursive = false then .error "destination is a directory, use recursive option"
      else if merge = false then
        if overwrite = true then .ok (removeAllFS destPath fs0)
        else .error "destination is a directory, use overwrite option"
      else .ok fs0
    | some (.file _ _) =>
      if overwrite = false then .error "destination already exists, use overwrite option"
      else .ok (removeFS destPath fs0)
    | none => .ok fs0
  match pre with
  | .error m => some (.error m)
  | .ok fs1 =>
    let loopRes : Option (Except String FS) :=
      match archive with
      | [] => some (.ok fs1)
      | entry :: _ => copyLoopGo destPath merge overwrite entry fuel fs1
    match loopRes with
    | none => none
    | some (.error m) => some (.error m)
    | some (.ok fs2) =>
      if outerStatOk then some (.ok fs2) else some (.error "cannot read tar stream")

/-! ## Theorems -/

theorem splitDigits_append (ds r : List Char) (hd : ∀ c ∈ ds, c.isDigit = true)
    (hr : ∀ c, r.head? = some c → c.isDigit = false) :
    splitDigits (ds ++ r) = (ds, r) := by
  induction ds with
  | nil =>
    simp only [List.nil_append]
    cases r with
    | nil => rfl
    | cons c cs =>
      have hc : c.isDigit = false := hr c rfl
      simp [splitDigits, hc]
  | cons c cs ih =>
    have hc : c.isDigit = true := hd c (List.mem_cons_self c cs)
    have ih2 := ih (fun x hx => hd x (List.mem_cons_of_mem c hx))
    simp [splitDigits, hc, ih2]

theorem skipSpacesC_digit (c : Char) (cs : List Char) (h : c.isDigit = true) :
    skipSpacesC (c :: cs) = c :: cs := by
  have h1 : c ≠ ' ' := by intro e; subst e; exact absurd h (by decide)
  have h2 : c ≠ '\t' := by intro e; subst e; exact absurd h (by decide)
  have h3 : c ≠ '\n' := by intro e; subst e; exact absurd h (by decide)
  have h4 : c ≠ '\r' := by intro e; subst e; exact absurd h (by decide)
  simp [skipSpacesC, h1, h2, h3, h4]

theorem skipSpacesC_dash (cs : List Char) : skipSpacesC ('-' :: cs) = '-' :: cs := by
  simp [skipSpacesC]

theorem signSplit_digit (c : Char) (cs : List Char) (h : c.isDigit = true) :
    signSplit (c :: cs) = (false, c :: cs) := by
  have h1 : c ≠ '-' := by intro e; subst e; exact absurd h (by decide)
  have h2 : c ≠ '+' := by intro e; subst e; exact absurd h (by decide)
  simp [signSplit, h1, h2]

theorem scanInt64_digits (ds rest : List Char) (hne : ds ≠ [])
    (hd : ∀ c ∈ ds, c.isDigit = true)
    (hrest : ∀ c, rest.head? = some c → c.isDigit = false)
    (hb : digitsVal ds ≤ maxInt64) :
    scanInt64 (ds ++ rest) = some ((digitsVal ds : Int), rest) := by
  obtain ⟨c, cs, rfl⟩ : ∃ c cs, ds = c :: cs := by
    cases ds with
    | nil => exact absurd rfl hne
    | cons c cs => exact ⟨c, cs, rfl⟩
  have hc : c.isDigit = true := hd c (List.mem_cons_self c cs)
  have hsplit := splitDigits_append (c :: cs) rest hd hrest
  rw [List.cons_append] at hsplit
  unfold scanInt64
  rw [List.cons_append]
  simp only [skipSpacesC_digit c (cs ++ rest) hc, signSplit_digit c (cs ++ rest) hc, hsplit]
  simp [hb]

theorem scanInt64_neg_digits (ds rest : List Char) (hne : ds ≠ [])
    (hd : ∀ c ∈ ds, c.isDigit = true)
    (hrest : ∀ c, rest.head? = some c → c.isDigit = false)
    (hb : digitsVal ds ≤ maxInt64 + 1) :
    scanInt64 ('-' :: ds ++ rest) = some (-(digitsVal ds : Int), rest) := by
  obtain ⟨c, cs, rfl⟩ : ∃ c cs, ds = c :: cs := by
    cases ds with
    | nil => exact absurd rfl hne
    | cons c cs => exact ⟨c, cs, rfl⟩
  have hsgn : signSplit ('-' :: (c :: (cs ++ rest))) = (true, c :: (cs ++ rest)) := by
    simp [signSplit]
  have hsplit := splitDigits_append (c :: cs) rest hd hrest
  rw [List.cons_append] at hsplit
  unfold scanInt64
  rw [List.cons_append, List.cons_append]
  simp only [skipSpacesC_dash, hsgn, hsplit]
  simp [hb]

theorem scanDD_step (s r2 : List Char) (a : Int)
    (h : scanInt64 s = some (a, '-' :: r2)) (b : Int) (r3 : List Char)
    (h2 : scanInt64 r2 = some (b, r3)) :
    scanDD s = some (a, b) := by
  unfold scanDD
  rw [h]
  show (match scanInt64 r2 with
        | none => none
        | some bv => some (a, bv.1)) = some (a, b)
  rw [h2]

theorem scanDD_exact (ds1 ds2 rest : List Char)
    (h1 : ds1 ≠ []) (hd1 : ∀ c ∈ ds1, c.isDigit = true)
    (h2 : ds2 ≠ []) (hd2 : ∀ c ∈ ds2, c.isDigit = true)
    (hrest : ∀ c, rest.head? = some c → c.isDigit = false)
    (hb1 : digitsVal ds1 ≤ maxInt64) (hb2 : digitsVal ds2 ≤ maxInt64) :
    scanDD (ds1 ++ '-' :: (ds2 ++ rest)) = some ((digitsVal ds1 : Int), (digitsVal ds2 : Int)) := by
  have hfst := scanInt64_digits ds1 ('-' :: (ds2 ++ rest)) h1 hd1
    (fun c hc => by cases hc; decide) hb1
  have hsnd := scanInt64_digits ds2 rest h2 hd2 hrest hb2
  exact scanDD_step _ _ _ hfst _ _ hsnd

theorem parseByteRange_scan (s : List Char) (hne : s ≠ []) (a b : Int)
    (h : scanDD s = some (a, b)) :
    parseByteRange s =
      (if a < 0 ∨ b < 0 ∨ a > b then .error "invalid byte range"
       else .ok ⟨false, a, b⟩) := by
  unfold parseByteRange
  rw [if_neg hne, h]

/-- C6 counterexample: the string `0-0x` is not exactly of the form
`<start>-<end>`, yet `parseByteRange` accepts it (with bounds 0,0), because
`fmt.Sscanf` ignores input left over after the last conversion. -/
theorem parseByteRange_claim_cex :
    parseByteRange ['0', '-', '0', 'x'] = .ok ⟨false, 0, 0⟩ ∧
    exactRangeParse ['0', '-', '0', 'x'] = none := by
  exact ⟨rfl, rfl⟩

/-- C6 (amended): the empty string parses as the whole-file range; a string
whose scanned prefix is `<start>-<end>` (digits, dash, digits, with `end`
within `int64` and any following characters ignored provided they do not
extend the digits of `end`) parses to exactly the written bounds when
`start ≤ end` and is rejected as malformed when `start > end`; a string
carrying a negative `start` is rejected as malformed. -/
theorem parseByteRange_amended :
    parseByteRange [] = .ok ⟨true, 0, 0⟩ ∧
    (∀ ds1 ds2 rest : List Char, ds1 ≠ [] → (∀ c ∈ ds1, c.isDigit = true) →
      ds2 ≠ [] → (∀ c ∈ ds2, c.isDigit = true) →
      (∀ c, rest.head? = some c → c.isDigit = false) →
      digitsVal ds1 ≤ maxInt64 → digitsVal ds2 ≤ maxInt64 →
      parseByteRange (ds1 ++ '-' :: (ds2 ++ rest)) =
        (if digitsVal ds1 ≤ digitsVal ds2 then
           .ok ⟨false, (digitsVal ds1 : Int), (digitsVal ds2 : Int)⟩
         else .error "invalid byte range")) ∧
    (∀ ds1 ds2 : List Char, ds1 ≠ [] → (∀ c ∈ ds1, c.isDigit = true) →
      ds2 ≠ [] → (∀ c ∈ ds2, c.isDigit = true) →
      0 < digitsVal ds1 → digitsVal ds1 ≤ maxInt64 + 1 → digitsVal ds2 ≤ maxInt64 →
      parseByteRange ('-' :: ds1 ++ '-' :: ds2) = .error "invalid byte range") := by
  refine ⟨rfl, ?_, ?_⟩
  · intro ds1 ds2 rest h1 hd1 h2 hd2 hrest hb1 hb2
    have hne : ds1 ++ '-' :: (ds2 ++ rest) ≠ [] := by
      cases ds1 with
      | nil => exact absurd rfl h1
      | cons c cs => simp
    have hdd := scanDD_exact ds1 ds2 rest h1 hd1 h2 hd2 hrest hb1 hb2
    rw [parseByteRange_scan _ hne _ _ hdd]
    by_cases hle : digitsVal ds1 ≤ digitsVal ds2
    · rw [if_neg (by omega), if_pos hle]
    · rw [if_pos (by omega), if_neg hle]
  · intro ds1 ds2 h1 hd1 h2 hd2 hpos hb1 hb2
    have hfst := scanInt64_neg_digits ds1 ('-' :: ds2) h1 hd1
      (fun c hc => by cases hc; decide) hb1
    have hsnd : scanInt64 ds2 = some ((digitsVal ds2 : Int), []) := by
      have h := scanInt64_digits ds2 [] h2 hd2 (fun c hc => by cases hc) hb2
      simpa using h
    have hdd := scanDD_step _ _ _ hfst _ _ hsnd
    have hne : '-' :: ds1 ++ '-' :: ds2 ≠ [] := by simp
    rw [parseByteRange_scan _ hne _ _ hdd]
    rw [if_pos (by omega)]

/-- C6 witness: concrete instantiation of the amended theorem. -/
theorem parseByteRange_amended_witness :
    parseByteRange (['1'] ++ '-' :: (['3'] ++ ['x'])) =
      (if digitsVal ['1'] ≤ digitsVal ['3'] then
         .ok ⟨false, (digitsVal ['1'] : Int), (digitsVal ['3'] : Int)⟩
       else .error "invalid byte range") :=
  parseByteRange_amended.2.1 ['1'] ['3'] ['x'] (by decide) (by decide) (by decide)
    (by decide) (by decide) (by decide) (by decide)

theorem writerChanRun_stream (hash : List Nat → List Nat)
    (chunks : List (List Nat)) (c : List Nat) :
    ∀ written fed : List Nat,
      writerChanRun hash written fed (chunkStream chunks c) =
        (if hash (fed ++ chunks.flatten) = c then .success else .failChecksum,
         written ++ chunks.flatten) := by
  induction chunks with
  | nil =>
    intro written fed
    show writerChanRun hash written fed [.response ⟨[], some c⟩] = _
    rw [writerChanRun.eq_def]
    dsimp only
    simp only [List.flatten_nil, List.append_nil]
    by_cases hP : hash fed = c
    · rw [if_pos hP, if_pos hP]
    · rw [if_neg hP, if_neg hP]
  | cons d rest ih =>
    intro written fed
    have hcs : chunkStream (d :: rest) c = .response ⟨d, none⟩ :: chunkStream rest c := by
      simp [chunkStream]
    rw [hcs, writerChanRun.eq_def]
    dsimp only
    rw [ih (written ++ d) (fed ++ d)]
    simp [List.append_assoc]

/-- C3: on a stream of data chunks followed by the terminal checksum packet,
`WriterChan` invokes the failure callback with the checksum-verification
error if and only if the received checksum differs byte-for-byte from the
digest accumulated over the received data chunks; when they agree it
completes successfully without invoking the failure callback.  `hash` is
universally quantified, so any alteration of a data chunk that changes the
accumulated digest is reported as an integrity failure, never a silent
success. -/
theorem writerChan_checksum_iff (hash : List Nat → List Nat)
    (chunks : List (List Nat)) (c : List Nat) :
    (writerChanRun hash [] [] (chunkStream chunks c)).1 =
      (if hash chunks.flatten = c then .success else .failChecksum) := by
  rw [writerChanRun_stream hash chunks c [] []]
  simp

theorem readerChanGo_nil (hash : List Nat → List Nat) (cancelAt : Option Nat)
    (i : Nat) (fed : List Nat) : readerChanGo hash cancelAt i fed [] = [] := by
  rw [readerChanGo.eq_def]

theorem readerChanGo_cons (hash : List Nat → List Nat) (cancelAt : Option Nat)
    (i : Nat) (fed : List Nat) (r : ReadResult) (rest : List ReadResult) :
    readerChanGo hash cancelAt i fed (r :: rest) =
      (if cancelledAt cancelAt i then []
       else
        match r with
        | .fail m => [.err ("ReaderChan: read error: " ++ m)]
        | .eof => [.response ⟨[], some (hash fed)⟩]
        | .chunk b =>
          if b = [] then readerChanGo hash cancelAt (i + 1) fed rest
          else .response ⟨b, none⟩ :: readerChanGo hash cancelAt (i + 1) (fed ++ b) rest) := by
  rw [readerChanGo.eq_def]

theorem readerChanGo_terminal_last (hash : List Nat → List Nat)
    (cancelAt : Option Nat) (reads : List ReadResult) :
    ∀ i fed j p, (readerChanGo hash cancelAt i fed reads)[j]? = some p →
      isTerminal p = true →
      j + 1 = (readerChanGo hash cancelAt i fed reads).length := by
  induction reads with
  | nil => intro i fed j p hp _; rw [readerChanGo_nil] at hp; simp at hp
  | cons r rest ih =>
    intro i fed j p hp hterm
    rw [readerChanGo_cons] at hp ⊢
    by_cases hc : cancelledAt cancelAt i = true
    · rw [if_pos hc] at hp; simp at hp
    · rw [if_neg hc] at hp ⊢
      cases r with
      | fail m =>
        dsimp only at hp ⊢
        cases j with
        | zero => simp
        | succ j2 => simp at hp
      | eof =>
        dsimp only at hp ⊢
        cases j with
        | zero => simp
        | succ j2 => simp at hp
      | chunk b =>
        dsimp only at hp ⊢
        by_cases hb : b = []
        · rw [if_pos hb] at hp ⊢
          exact ih (i + 1) fed j p hp hterm
        · rw [if_neg hb] at hp ⊢
          cases j with
          | zero =>
            simp only [List.getElem?_cons_zero, Option.some_inj] at hp
            rw [← hp] at hterm
            exact absurd hterm (by simp [isTerminal])
          | succ j2 =>
            simp only [List.getElem?_cons_succ] at hp
            have h2 := ih (i + 1) (fed ++ b) j2 p hp hterm
            simp only [List.length_cons]
            omega

theorem readerChanGo_cancel_no_terminal (hash : List Nat → List Nat) (k : Nat)
    (reads : List ReadResult) :
    ∀ i fed, (∀ r ∈ reads.take (k - i), ∃ b, r = .chunk b) →
      ∀ p ∈ readerChanGo hash (some k) i fed reads, isTerminal p = false := by
  induction reads with
  | nil => intro i fed _ p hp; rw [readerChanGo_nil] at hp; simp at hp
  | cons r rest ih =>
    intro i fed hpre p hp
    rw [readerChanGo_cons] at hp
    by_cases hc : cancelledAt (some k) i = true
    · rw [if_pos hc] at hp; simp at hp
    · rw [if_neg hc] at hp
      have hik : i < k := by
        by_contra hik
        exact hc (by simp [cancelledAt]; omega)
      have htake : (r :: rest).take (k - i) = r :: rest.take (k - i - 1) := by
        cases hki : k - i with
        | zero => omega
        | succ m =>
          rw [List.take_succ_cons]
          congr 1
      obtain ⟨b, rfl⟩ : ∃ b, r = .chunk b := by
        apply hpre
        rw [htake]
        exact List.mem_cons_self _ _
      have hrest : ∀ x ∈ rest.take (k - (i + 1)), ∃ b2, x = .chunk b2 := by
        intro x hx
        apply hpre
        rw [htake]
        apply List.mem_cons_of_mem
        have : k - (i + 1) = k - i - 1 := by omega
        rwa [this] at hx
      dsimp only at hp
      by_cases hb : b = []
      · rw [if_pos hb] at hp
        exact ih (i + 1) fed hrest p hp
      · rw [if_neg hb] at hp
        rcases List.mem_cons.mp hp with h1 | h2
        · subst h1; simp [isTerminal]
        · exact ih (i + 1) (fed ++ b) hrest p h2

/-- C5: on every packet list produced by `ReaderChan`, a terminal packet
(checksum or error) only ever occupies the last position — so at most one is
sent and nothing follows it; the channel is closed and the cleanup callback
invoked on every exit path; and when the context is cancelled before the
loop reaches a terminal read (the first `k` reads being plain data chunks),
the channel is closed without any terminal packet. -/
theorem readerChan_packet_discipline (hash : List Nat → List Nat)
    (cancelAt : Option Nat) (reads : List ReadResult) :
    (readerChan hash cancelAt reads).closed = true ∧
    (readerChan hash cancelAt reads).cleanedUp = true ∧
    (∀ j p, (readerChan hash cancelAt reads).packets[j]? = some p →
      isTerminal p = true →
      j + 1 = (readerChan hash cancelAt reads).packets.length) ∧
    (∀ k, cancelAt = some k → (∀ r ∈ reads.take k, ∃ b, r = .chunk b) →
      ∀ p ∈ (readerChan hash cancelAt reads).packets, isTerminal p = false) := by
  refine ⟨rfl, rfl, ?_, ?_⟩
  · intro j p hp hterm
    exact readerChanGo_terminal_last hash cancelAt reads 0 [] j p hp hterm
  · intro k hk hpre p hp
    subst hk
    exact readerChanGo_cancel_no_terminal hash k reads 0 []
      (by simpa using hpre) p hp

/-- C5 witness: concrete run, cancelled before the second read. -/
theorem readerChan_packet_discipline_witness :
    ((readerChan (fun l => l) (some 1) [ReadResult.chunk [5], ReadResult.eof]).packets.all
      (fun p => !(isTerminal p))) = true ∧
    (readerChan (fun l => l) (some 1) [ReadResult.chunk [5], ReadResult.eof]).closed = true := by
  have h := readerChan_packet_discipline (fun l => l) (some 1)
    [ReadResult.chunk [5], ReadResult.eof]
  refine ⟨?_, h.1⟩
  have h4 := h.2.2.2 1 rfl (by
    intro r hr
    simp only [List.take_succ_cons, List.take_zero] at hr
    rcases List.mem_cons.mp hr with h1 | h1
    · exact ⟨[5], h1⟩
    · simp at h1)
  rw [List.all_eq_true]
  intro p hp
  simp [h4 p hp]

theorem streamRegGo_stop (file : List Nat) (chunk : Nat) (all : Bool) (e : Int)
    (pos : Nat) (h : min chunk (file.length - pos) = 0) :
    streamRegGo file chunk all e pos = [] := by
  unfold streamRegGo
  rw [dif_pos h]

theorem drop_take_eq (l : List Nat) (pos V M : Nat) (hV : V = M - pos) :
    (l.drop pos).take V = (l.take M).drop pos := by
  rw [List.drop_take]
  rw [hV]

theorem streamRegGo_flatten (file : List Nat) (chunk e : Nat) (hchunk : 0 < chunk) :
    ∀ m pos, file.length - pos ≤ m →
      (streamRegGo file chunk false (e : Int) pos).flatten =
        (file.take (min e file.length)).drop pos := by
  intro m
  induction m with
  | zero =>
    intro pos hm
    have h0 : min chunk (file.length - pos) = 0 := by omega
    rw [streamRegGo_stop file chunk false (e : Int) pos h0]
    have hlen : (file.take (min e file.length)).length ≤ pos := by
      rw [List.length_take]
      omega
    rw [List.drop_eq_nil_of_le hlen]
    rfl
  | succ m2 ih =>
    intro pos hm
    by_cases h0 : min chunk (file.length - pos) = 0
    · rw [streamRegGo_stop file chunk false (e : Int) pos h0]
      have hlen : (file.take (min e file.length)).length ≤ pos := by
        rw [List.length_take]
        omega
      rw [List.drop_eq_nil_of_le hlen]
      rfl
    · have hlen : pos < file.length := by omega
      have hraw : 0 < min chunk (file.length - pos) := by omega
      unfold streamRegGo
      rw [dif_neg h0]
      by_cases hcl : ((false = false) ∧
          (pos : Int) + ((min chunk (file.length - pos) : Nat) : Int) > ((e : Nat) : Int))
      · -- the read runs past End: it is clipped to e - pos and the loop stops
        have hne : e < pos + min chunk (file.length - pos) := by
          have h3 := hcl.2
          omega
        have hcval : clipN false ((e : Nat) : Int) pos (min chunk (file.length - pos)) = e - pos := by
          unfold clipN
          rw [if_pos hcl]
          omega
        rw [hcval]
        have hstop : ((false = false) ∧ (pos : Int) + (((e - pos : Nat)) : Int) ≥ ((e : Nat) : Int)) := by
          refine ⟨rfl, ?_⟩
          omega
        rw [dif_pos hstop]
        rw [List.flatten_cons, List.flatten_nil, List.append_nil]
        exact drop_take_eq file pos (e - pos) (min e file.length) (by omega)
      · have hle : pos + min chunk (file.length - pos) ≤ e := by
          rcases not_and_or.mp hcl with h3 | h3
          · exact absurd rfl h3
          · omega
        have hcval : clipN false ((e : Nat) : Int) pos (min chunk (file.length - pos)) =
            min chunk (file.length - pos) := by
          unfold clipN
          rw [if_neg hcl]
        rw [hcval]
        by_cases hstop : ((false = false) ∧
            (pos : Int) + ((min chunk (file.length - pos) : Nat) : Int) ≥ ((e : Nat) : Int))
        · -- filePos reached End exactly: emit and stop
          rw [dif_pos hstop]
          have heq : pos + min chunk (file.length - pos) = e := by
            have h3 := hstop.2
            omega
          rw [List.flatten_cons, List.flatten_nil, List.append_nil]
          exact drop_take_eq file pos (min chunk (file.length - pos)) (min e file.length) (by omega)
        · -- emit a full chunk and continue
          rw [dif_neg hstop]
          have hlt : pos + min chunk (file.length - pos) < e := by
            rcases not_and_or.mp hstop with h3 | h3
            · exact absurd rfl h3
            · omega
          rw [List.flatten_cons]
          rw [ih (pos + min chunk (file.length - pos)) (by omega)]
          conv_rhs => rw [← List.take_append_drop (min chunk (file.length - pos))
            ((file.take (min e file.length)).drop pos)]
          congr 1
          · rw [List.drop_take, List.take_take]
            congr 1
            omega
          · rw [List.drop_drop]

/-- C4: for a regular-file stream request with byte range `{start, end}`,
the concatenation of the emitted data chunks is exactly the bytes of the file
over the span from `start` up to (exclusively) `end`, clipped at end of
file — in particular no byte at or past the declared `end` is ever emitted,
even when a read returned more data past it, and chunks are delivered in
file order. -/
theorem remoteStreamFileRegular_range (file : List Nat) (chunk s e : Nat)
    (hchunk : 0 < chunk) :
    (remoteStreamFileRegular file chunk ⟨false, (s : Int), (e : Int)⟩).flatten =
      (file.take (min e file.length)).drop s := by
  show (streamRegGo file chunk false (e : Int) (((s : Int)).toNat)).flatten = _
  rw [Int.toNat_natCast]
  exact streamRegGo_flatten file chunk e hchunk (file.length - s) s (le_refl _)

/-- C4 witness: concrete file and range. -/
theorem remoteStreamFileRegular_range_witness :
    (remoteStreamFileRegular [10, 20, 30, 40, 50] 2 ⟨false, (1 : Nat), (3 : Nat)⟩).flatten =
      ([10, 20, 30, 40, 50].take (min 3 5)).drop 1 :=
  remoteStreamFileRegular_range [10, 20, 30, 40, 50] 2 1 3 (by decide)

theorem walkCollect_eq (offset L : Nat) (nodes : List DNode) :
    ∀ seen acc, walkCollect offset L nodes seen acc =
      acc ++ ((nodes.take (offset + L - seen)).drop (offset - seen)).filter
        (fun d => !d.isDir) := by
  induction nodes with
  | nil => intro seen acc; simp [walkCollect]
  | cons d rest ih =>
    intro seen acc
    rw [walkCollect]
    by_cases h1 : seen < offset
    · rw [if_pos h1, ih (seen + 1) acc]
      obtain ⟨k, hk⟩ : ∃ k, offset - seen = k + 1 := ⟨offset - seen - 1, by omega⟩
      obtain ⟨k2, hk2⟩ : ∃ k2, offset + L - seen = k2 + 1 := ⟨offset + L - seen - 1, by omega⟩
      rw [hk, hk2, List.take_succ_cons, List.drop_succ_cons]
      have hk3 : offset - (seen + 1) = k := by omega
      have hk4 : offset + L - (seen + 1) = k2 := by omega
      rw [hk3, hk4]
    · rw [if_neg h1]
      by_cases h2 : seen ≥ offset + L
      · rw [if_pos h2]
        have h3 : offset + L - seen = 0 := by omega
        rw [h3, List.take_zero, List.drop_nil, List.filter_nil, List.append_nil]
      · rw [if_neg h2]
        obtain ⟨k2, hk2⟩ : ∃ k2, offset + L - seen = k2 + 1 := ⟨offset + L - seen - 1, by omega⟩
        have h3 : offset - seen = 0 := by omega
        have hk4 : offset + L - (seen + 1) = k2 := by omega
        have h5 : offset - (seen + 1) = 0 := by omega
        by_cases hd : d.isDir
        · rw [if_pos hd, ih (seen + 1) acc, hk2, List.take_succ_cons, h3, h5, hk4,
            List.drop_zero, List.drop_zero, List.filter_cons]
          simp [hd]
        · rw [if_neg hd, ih (seen + 1) (acc ++ [d]), hk2, List.take_succ_cons, h3, h5, hk4,
            List.drop_zero, List.drop_zero, List.filter_cons]
          simp only [hd]
          simp

/-- C7: `listEntries` with `all=true` collects, in traversal order, exactly
the non-directory nodes whose visit order falls in `[offset, offset+limit)`
— the first `offset` visited nodes are skipped, the walk is aborted as soon
as `offset+limit` nodes have been visited, directories are traversed but
not collected, and a zero limit defaults to the maximum directory size. -/
theorem remoteListEntriesAll_spec (maxDirSize : Nat) (nodes : List DNode)
    (offset limit : Nat) :
    remoteListEntriesAll maxDirSize nodes offset limit =
      ((nodes.take (offset + (if limit = 0 then maxDirSize else limit))).drop offset).filter
        (fun d => !d.isDir) := by
  rw [remoteListEntriesAll, walkCollect_eq]
  simp

theorem dirBatches_flatten (chunkSz : Nat) : ∀ l arr : List DirEnt,
    (dirBatches chunkSz arr l).flatten = arr ++ l := by
  intro l
  induction l with
  | nil =>
    intro arr
    rw [dirBatches]
    by_cases h : arr.length > 0
    · rw [if_pos h]; simp
    · rw [if_neg h]
      have h2 : arr = [] := by
        cases arr with
        | nil => rfl
        | cons a as => simp at h
      simp [h2]
  | cons x rest ih =>
    intro arr
    rw [dirBatches]
    by_cases h : (arr ++ [x]).length ≥ chunkSz
    · rw [if_pos h]
      rw [List.flatten_cons, ih []]
      simp
    · rw [if_neg h, ih (arr ++ [x])]
      simp

/-- C8: streaming a directory with no byte range returns its children
truncated to the maximum directory size; with byte range `{start, end}` it
returns the slice of children at indices `[start, min(end, N))`, and an
offset `start ≥ N` yields an empty successful result; whenever output is
produced and the parent stat succeeded, the first returned entry is the
synthesized `..` parent entry with size `-1`, unless the parent directory
equals the path itself. -/
theorem remoteStreamFileDir_spec (maxDirSize chunkSz : Nat) (entries : List DirEnt)
    (pinfo : DirEnt) (peq : Bool) (s e : Nat) (hse : s ≤ e) :
    ((remoteStreamFileDir maxDirSize chunkSz entries (some pinfo) peq ⟨true, 0, 0⟩).flatten =
      (if peq then [] else [(⟨"..", pinfo.isDir, -1⟩ : DirEnt)]) ++ entries.take maxDirSize) ∧
    ((remoteStreamFileDir maxDirSize chunkSz entries (some pinfo) peq
        ⟨false, (s : Int), (e : Int)⟩).flatten =
      (if entries.length ≤ s then []
       else (if peq then [] else [(⟨"..", pinfo.isDir, -1⟩ : DirEnt)]) ++
         (entries.take (min e entries.length)).drop s)) ∧
    (peq = false → s < entries.length →
      ((remoteStreamFileDir maxDirSize chunkSz entries (some pinfo) peq
          ⟨false, (s : Int), (e : Int)⟩).flatten).head? =
        some (⟨"..", pinfo.isDir, -1⟩ : DirEnt)) := by
  refine ⟨?_, ?_, ?_⟩
  · rw [remoteStreamFileDir]
    have hc : ¬ ((true : Bool) = false ∧ ((entries.length : Nat) : Int) ≤ (0 : Int)) := by
      intro h
      exact absurd h.1 (by decide)
    rw [if_neg hc]
    simp only
    rw [dirBatches_flatten]
    simp
  · rw [remoteStreamFileDir]
    by_cases hsN : entries.length ≤ s
    · have hc : ((false : Bool) = false ∧ ((entries.length : Nat) : Int) ≤ ((s : Nat) : Int)) :=
        ⟨rfl, by exact_mod_cast hsN⟩
      rw [if_pos hc, if_pos hsN]
      rfl
    · have hc : ¬ ((false : Bool) = false ∧ ((entries.length : Nat) : Int) ≤ ((s : Nat) : Int)) := by
        intro h
        exact hsN (by exact_mod_cast h.2)
      rw [if_neg hc, if_neg hsN]
      simp only
      rw [dirBatches_flatten]
      simp [Int.toNat_natCast]
  · intro hpeq hslt
    rw [remoteStreamFileDir]
    have hc : ¬ ((false : Bool) = false ∧ ((entries.length : Nat) : Int) ≤ ((s : Nat) : Int)) := by
      intro h
      have h2 : entries.length ≤ s := by exact_mod_cast h.2
      omega
    rw [if_neg hc]
    simp only
    rw [dirBatches_flatten]
    rw [hpeq]
    simp

/-- C8 witness: concrete directory with three children, range 1-2. -/
theorem remoteStreamFileDir_spec_witness :
    ((remoteStreamFileDir 1024 4 [⟨"a", false, 1⟩, ⟨"b", false, 2⟩, ⟨"c", true, -1⟩]
        (some ⟨"p", true, -1⟩) false ⟨false, (1 : Nat), (2 : Nat)⟩).flatten =
      (if ([⟨"a", false, 1⟩, ⟨"b", false, 2⟩, ⟨"c", true, -1⟩] : List DirEnt).length ≤ 1 then []
       else (if false then [] else [(⟨"..", true, -1⟩ : DirEnt)]) ++
         (([⟨"a", false, 1⟩, ⟨"b", false, 2⟩, ⟨"c", true, -1⟩] : List DirEnt).take
            (min 2 ([⟨"a", false, 1⟩, ⟨"b", false, 2⟩, ⟨"c", true, -1⟩] : List DirEnt).length)).drop 1)) :=
  (remoteStreamFileDir_spec 1024 4 [⟨"a", false, 1⟩, ⟨"b", false, 2⟩, ⟨"c", true, -1⟩]
    ⟨"p", true, -1⟩ false 1 2 (by decide)).2.1

theorem expandHomeDirSafe_abs (home p : List Char) (h : isAbsPath p = true) :
    expandHomeDirSafe home p = p := by
  obtain ⟨rest, rfl⟩ : ∃ rest, p = '/' :: rest := by
    cases p with
    | nil => simp [isAbsPath] at h
    | cons c cs =>
      simp only [isAbsPath, List.head?] at h
      have h2 : c = '/' := by
        have h3 : (some c == some '/') = true := h
        simpa using h3
      exact ⟨cs, by rw [h2]⟩
  unfold expandHomeDirSafe
  rw [if_neg (by simp), if_neg ?hne]
  case hne =>
    cases rest with
    | nil => simp
    | cons c2 cs2 => simp

theorem resolvePathsGo_reset (home : List Char)
    (join : List Char → List Char → List Char) (a : List Char) (rest : List (List Char))
    (ha : isAbsPath a = true) :
    ∀ l acc, resolvePathsGo home join acc (l ++ a :: rest) =
      resolvePathsGo home join a rest := by
  intro l
  induction l with
  | nil =>
    intro acc
    rw [List.nil_append, resolvePathsGo]
    rw [expandHomeDirSafe_abs home a ha]
    rw [if_pos ha]
  | cons x l2 ih =>
    intro acc
    rw [List.cons_append, resolvePathsGo]
    by_cases hx : isAbsPath (expandHomeDirSafe home x) = true
    · rw [if_pos hx]
      exact ih _
    · rw [if_neg hx]
      exact ih _

/-- C10: `resolveJoinedPath` with an empty segment list resolves to the home
directory; each later segment is home-expanded and joined left to right onto
the accumulated path, except that an absolute segment discards everything
accumulated so far and becomes the new base — joining `[p, a]` for absolute
`a` yields `a` itself, and in general everything before the last absolute
segment is irrelevant. -/
theorem resolvePaths_spec (home : List Char)
    (join : List Char → List Char → List Char) :
    (resolvePaths home join [] = home) ∧
    (∀ p a : List Char, isAbsPath a = true → resolvePaths home join [p, a] = a) ∧
    (∀ (pre : List (List Char)) (a : List Char) (rest : List (List Char)),
      pre ≠ [] → isAbsPath a = true →
      resolvePaths home join (pre ++ a :: rest) = resolvePaths home join (a :: rest)) := by
  refine ⟨by simp [resolvePaths, expandHomeDirSafe], ?_, ?_⟩
  · intro p a ha
    show resolvePathsGo home join (expandHomeDirSafe home p) ([] ++ a :: []) = a
    rw [resolvePathsGo_reset home join a [] ha [] _]
    rfl
  · intro pre a rest hpre ha
    obtain ⟨x, pre2, rfl⟩ : ∃ x pre2, pre = x :: pre2 := by
      cases pre with
      | nil => exact absurd rfl hpre
      | cons x pre2 => exact ⟨x, pre2, rfl⟩
    show resolvePathsGo home join (expandHomeDirSafe home x) (pre2 ++ a :: rest) = _
    rw [resolvePathsGo_reset home join a rest ha pre2 _]
    show _ = resolvePathsGo home join (expandHomeDirSafe home a) rest
    rw [expandHomeDirSafe_abs home a ha]

/-- C10 witness: a relative segment followed by an absolute one. -/
theorem resolvePaths_spec_witness :
    resolvePaths ['/', 'h'] (fun a b => a ++ '/' :: b) [['x'], ['/', 'y']] = ['/', 'y'] :=
  (resolvePaths_spec ['/', 'h'] (fun a b => a ++ '/' :: b)).2.1 ['x'] ['/', 'y'] (by decide)

/-- C1 (code bug): on the overwrite rows for an incoming file (and for an
incoming directory over an existing file), the per-entry branch removes the
existing destination but never creates the incoming entry — the creation
code sits in the `else` branch reached only when the destination did not
exist — where the rows of the spec prescribe removal followed by creating the
file with payload and mode (or recreating the directory). -/
theorem copyEntryDecision_overwrite_bug :
    copyEntryDecision (some .file) false false true = .acts [.remove] ∧
    specEntryDecision (some .file) false false true = .acts [.remove, .createWrite] ∧
    copyEntryDecision (some .file) true false true = .acts [.removeAll] ∧
    specEntryDecision (some .file) true false true = .acts [.remove, .mkdirAll] ∧
    copyEntryDecision (some .dir) false false true = .acts [.remove] ∧
    specEntryDecision (some .dir) false false true = .acts [.remove, .createWrite] :=
  ⟨rfl, rfl, rfl, rfl, rfl, rfl⟩

/-- C9 (code bug): on the single-file success path the tar-stream source
opens the source file and never closes it — the trace contains its open
event and no close event for it, while the pipe ends and tar writer are
closed by the cleanup callback. -/
theorem remoteTarStream_file_leak :
    HEvent.openH .srcFileH ∈ remoteTarStreamHandleTrace true false true true ∧
    HEvent.closeH .srcFileH ∉ remoteTarStreamHandleTrace true false true true ∧
    HEvent.closeH .pipeReaderH ∈ remoteTarStreamHandleTrace true false true true ∧
    HEvent.closeH .pipeWriterH ∈ remoteTarStreamHandleTrace true false true true ∧
    HEvent.closeH .tarWriterH ∈ remoteTarStreamHandleTrace true false true true := by
  decide

/-- C2 (code bug): the destination loop does not process the entries of the
archive one after another — it never advances the tar iterator.  Copying a
two-entry archive into an existing directory (recursive+merge) creates only
the file of the first entry and returns success with the second entry never
processed; and a copy into an initially absent destination path returns the
"cannot read tar stream" error even though every entry it did process
succeeded, because the post-loop check reads the outer stat error of line
287. -/
theorem remoteFileCopy_loop_bug :
    (remoteFileCopy 5 [([("d" : String)], FsNode.dir)] [("d" : String)] true true false
        [⟨[("a" : String)], false, 420, [1]⟩, ⟨[("b" : String)], false, 420, [2]⟩] =
      some (.ok [([("d" : String), ("a" : String)], FsNode.file [1] 420),
                 ([("d" : String)], FsNode.dir)])) ∧
    (lookupFS [("d" : String), ("b" : String)]
        [([("d" : String), ("a" : String)], FsNode.file [1] 420),
         ([("d" : String)], FsNode.dir)] = none) ∧
    (remoteFileCopy 5 [] [("d" : String)] false false false
        [⟨[("a" : String)], false, 420, [1]⟩] =
      some (.error "cannot read tar stream")) := by
  refine ⟨rfl, rfl, rfl⟩

end Waveterm
